import Mathlib

/-!
Verification of the dbt source-table updater
(src/python/dbt-helper/dbt_helper/tools/v2/source_updater.py).

The development has two parts.

Part 1 embeds the column-reconciliation algorithm of
SourceTableUpdaterV2.update_columns (source lines 91-125).  A column
entry (a ruamel CommentedMap) is modelled as an insertion-ordered
association list with string keys and string values; the algorithm
never inspects a value other than by comparing the value of the
key "name" with a field name and by assigning the key "description",
so string values lose no generality.  A missing key raises KeyError,
modelled with the Except monad.  The normalized field records produced
by the external schema-extraction adapter (extract_schema_info, an
external collaborator) are the SchemaInfo inputs.

Part 2 embeds the document-level plumbing: validate_sources
(lines 52-63), the table_description / table_labels getters and
setters (lines 127-155), over a small YAML value type.
-/

namespace DbtSource

/-- Errors a Python expression of the embedded fragment can raise.
valueError is the ShapeError taxonomy kind of the spec. -/
inductive PyErr where
  | keyError : String → PyErr
  | indexError : PyErr
  | typeError : PyErr
  | valueError : String → PyErr
deriving DecidableEq, Repr

/-- Normalized warehouse field record produced by the external
schema-extraction adapter: name plus optional description.
A none description models Python None; isinstance(d, str) is isSome. -/
structure SchemaInfo where
  name : String
  description : Option String
deriving DecidableEq, Repr

/-- A column entry: a ruamel CommentedMap, modelled as an
insertion-ordered association list (a real dict has no duplicate keys,
and the algorithm treats values opaquely, so values are strings). -/
abbrev Col := List (String × String)

/-- Python d[k] for a CommentedMap: first binding of k, none = KeyError. -/
def dictGet (c : Col) (k : String) : Option String :=
  match c with
  | [] => none
  | p :: rest => if p.1 = k then some p.2 else dictGet rest k

/-- Python d[k] = v for a CommentedMap: overwrite the binding in place
if the key is present, otherwise append it at the end. -/
def dictSet (c : Col) (k : String) (v : String) : Col :=
  match c with
  | [] => [(k, v)]
  | p :: rest => if p.1 = k then (k, v) :: rest else p :: dictSet rest k v

/-- Python list.insert(pos, c): positions past the end clamp to an
append (List.take and List.drop clamp the same way). -/
def pyInsert (cs : List Col) (pos : Nat) (c : Col) : List Col :=
  cs.take pos ++ c :: cs.drop pos

/-- Python list.remove(c): drop the first element equal to c.  At every
call site below the element is present, so the absent case (Python
ValueError) never fires; it is modelled as the identity. -/
def removeFirst (cs : List Col) (c : Col) : List Col :=
  match cs with
  | [] => []
  | x :: rest => if x = c then rest else x :: removeFirst rest c

/-- Inner scan of update_columns (source lines 105-113) for one field:
walk the whole column list; on every entry whose "name" equals the
field name, overwrite "description" when the field description is a
string, set the has_column flag, and record the index in cursor_index.
Arguments after the list: absolute index of its head, current
has_column, current cursor_index. -/
def scanField (si : SchemaInfo) : List Col → Nat → Bool → Nat →
    Except PyErr (List Col × Bool × Nat)
  | [], _, has_column, cursor_index => .ok ([], has_column, cursor_index)
  | c :: rest, index, has_column, cursor_index =>
    match dictGet c "name" with
    | none => .error (.keyError "name")
    | some nm =>
      if nm = si.name then
        let c1 := match si.description with
          | some d => dictSet c "description" d
          | none => c
        match scanField si rest (index + 1) true index with
        | .ok (rest1, has1, cur1) => .ok (c1 :: rest1, has1, cur1)
        | .error e => .error e
      else
        match scanField si rest (index + 1) has_column cursor_index with
        | .ok (rest1, has1, cur1) => .ok (c :: rest1, has1, cur1)
        | .error e => .error e

/-- The fresh column built at source lines 116-119: a new CommentedMap
with "name", and "description" only when the field description is a
string. -/
def newCol (si : SchemaInfo) : Col :=
  let c1 := dictSet ([] : Col) "name" si.name
  match si.description with
  | some d => dictSet c1 "description" d
  | none => c1

/-- One iteration of the outer loop of update_columns (lines 104-120):
scan for the field, and when has_column stayed false insert the fresh
column at cursor_index + 1.  Note the source never advances
cursor_index after an insertion. -/
def processField (cs : List Col) (cursor : Nat) (si : SchemaInfo) :
    Except PyErr (List Col × Nat) :=
  match scanField si cs 0 false cursor with
  | .ok (cs1, has1, cur1) =>
    if has1 then .ok (cs1, cur1)
    else .ok (pyInsert cs1 (cur1 + 1) (newCol si), cur1)
  | .error e => .error e

/-- The outer loop of update_columns over all fields, threading the
column list and cursor_index. -/
def updateFields : List Col → Nat → List SchemaInfo →
    Except PyErr (List Col × Nat)
  | cs, cursor, [] => .ok (cs, cursor)
  | cs, cursor, si :: rest =>
    match processField cs cursor si with
    | .ok (cs1, cur1) => updateFields cs1 cur1 rest
    | .error e => .error e

/-- The removal loop of update_columns (lines 122-124):
for existing_column in self.columns: if its name is not among the new
field names, self.columns.remove(existing_column).  A Python list
iterator keeps a position i: each step reads the element at i and then
increments i, while remove shortens the list in place.  The fuel
argument only bounds the iteration count; since i grows by one each
step and the length never grows, an initial fuel of cs.length is
enough, and when fuel runs out the guard i < length fails as well, so
the fuel branch returns the same value the loop would. -/
def removeLoopAux (names : List String) (fuel : Nat) (cs : List Col) (i : Nat) :
    Except PyErr (List Col) :=
  match fuel with
  | 0 => .ok cs
  | fuel1 + 1 =>
    if h : i < cs.length then
      let c := cs.get ⟨i, h⟩
      match dictGet c "name" with
      | none => .error (.keyError "name")
      | some nm =>
        if nm ∈ names then removeLoopAux names fuel1 cs (i + 1)
        else removeLoopAux names fuel1 (removeFirst cs c) (i + 1)
    else .ok cs

/-- The removal pass over the whole column list. -/
def removeLoop (names : List String) (cs : List Col) : Except PyErr (List Col) :=
  removeLoopAux names cs.length cs 0

/-- update_columns (source lines 91-125) on the column list, taking the
already-normalized field list (the extract_schema_info adapter is an
external collaborator per spec section 1). -/
def update_columns (cs : List Col) (fields : List SchemaInfo) :
    Except PyErr (List Col) :=
  match updateFields cs 0 fields with
  | .ok (cs1, _) => removeLoop (fields.map (fun f => f.name)) cs1
  | .error e => .error e

/-- YAML values of the loaded document: scalars (strings), sequences
(CommentedSeq) and mappings (CommentedMap, an insertion-ordered
association list). -/
inductive Val where
  | str : String → Val
  | seq : List Val → Val
  | map : List (String × Val) → Val

/-- First binding of a key in a mapping. -/
def lookupKey (m : List (String × Val)) (k : String) : Option Val :=
  match m with
  | [] => none
  | p :: rest => if p.1 = k then some p.2 else lookupKey rest k

/-- Python d[k] = v on a mapping: overwrite the binding in place when
the key is present, otherwise append it. -/
def mapSetKey (m : List (String × Val)) (k : String) (v : Val) :
    List (String × Val) :=
  match m with
  | [] => [(k, v)]
  | p :: rest => if p.1 = k then (k, v) :: rest else p :: mapSetKey rest k v

/-- Python v[k] on a document node; KeyError when the key is absent,
TypeError on a non-mapping node. -/
def Val.getKey : Val → String → Except PyErr Val
  | .map m, k =>
    match lookupKey m k with
    | some v => .ok v
    | none => .error (.keyError k)
  | _, _ => .error .typeError

/-- Python v[i] on a document node; IndexError past the end, TypeError
on a non-sequence node. -/
def Val.getIdx : Val → Nat → Except PyErr Val
  | .seq xs, i => if h : i < xs.length then .ok (xs.get ⟨i, h⟩) else .error .indexError
  | _, _ => .error .typeError

/-- Python (k in v) on a mapping: key membership.  The loaded data is
documented in the source as a CommentedMap (line 19); membership in a
non-mapping node (a Python element or substring test) never arises in
the embedded fragment and is modelled as false. -/
def Val.hasKey : Val → String → Bool
  | .map m, k => m.any (fun p => p.1 = k)
  | _, _ => false

/-- Python len(v): entry count of a sequence or mapping, character
count of a string. -/
def Val.lenV : Val → Nat
  | .str s => s.length
  | .seq xs => xs.length
  | .map m => m.length

/-- Python v[k] = x on a document node. -/
def Val.setKey : Val → String → Val → Except PyErr Val
  | .map m, k, v => .ok (.map (mapSetKey m k v))
  | _, _, _ => .error .typeError

/-- Python v[i] = x on a document node. -/
def Val.setIdx : Val → Nat → Val → Except PyErr Val
  | .seq xs, i, v => if i < xs.length then .ok (.seq (xs.set i v)) else .error .indexError
  | _, _, _ => .error .typeError

/-- SourceTableUpdaterV2.validate_sources (source lines 52-63).  Each
raise ValueError(...) is the ShapeError of the spec.  Note the two
length checks only reject counts greater than one: an empty sources
list slips past the first and fails at data["sources"][0] with an
IndexError, and an empty tables list passes validation. -/
def validate_sources (data : Val) : Except PyErr Bool :=
  if data.hasKey "sources" = false then .error (.valueError "not a dbt source YAML")
  else
    match data.getKey "sources" with
    | .error e => .error e
    | .ok sources =>
      if sources.lenV > 1 then .error (.valueError "contains multiple datasets")
      else
        match sources.getIdx 0 with
        | .error e => .error e
        | .ok s0 =>
          if s0.hasKey "tables" = false then .error (.valueError "no tables")
          else
            match s0.getKey "tables" with
            | .error e => .error e
            | .ok tables =>
              if tables.lenV > 1 then .error (.valueError "contains multiple tables")
              else .ok true

/-- The table_description getter (source lines 127-130):
self.data["sources"][0]["tables"][0]["description"]. -/
def table_description (data : Val) : Except PyErr Val :=
  match data.getKey "sources" with
  | .error e => .error e
  | .ok s =>
    match s.getIdx 0 with
    | .error e => .error e
    | .ok s0 =>
      match s0.getKey "tables" with
      | .error e => .error e
      | .ok t =>
        match t.getIdx 0 with
        | .error e => .error e
        | .ok t0 => t0.getKey "description"

/-- The table_labels getter (source lines 142-145):
self.data["sources"][0]["tables"][0]["meta"]. -/
def table_labels (data : Val) : Except PyErr Val :=
  match data.getKey "sources" with
  | .error e => .error e
  | .ok s =>
    match s.getIdx 0 with
    | .error e => .error e
    | .ok s0 =>
      match s0.getKey "tables" with
      | .error e => .error e
      | .ok t =>
        match t.getIdx 0 with
        | .error e => .error e
        | .ok t0 => t0.getKey "meta"

/-- The assignment self.data["sources"][0]["tables"][0][k] = v, written
functionally: the Python statement mutates the table mapping through
references into the (tree-shaped, exclusively owned) document, which is
the same as rebuilding the path. -/
def setInTable0 (data : Val) (k : String) (v : Val) : Except PyErr Val :=
  match data.getKey "sources" with
  | .error e => .error e
  | .ok s =>
    match s.getIdx 0 with
    | .error e => .error e
    | .ok s0 =>
      match s0.getKey "tables" with
      | .error e => .error e
      | .ok t =>
        match t.getIdx 0 with
        | .error e => .error e
        | .ok t0 =>
          match t0.setKey k v with
          | .error e => .error e
          | .ok t0n =>
            match t.setIdx 0 t0n with
            | .error e => .error e
            | .ok tn =>
              match s0.setKey "tables" tn with
              | .error e => .error e
              | .ok s0n =>
                match s.setIdx 0 s0n with
                | .error e => .error e
                | .ok sn => data.setKey "sources" sn

/-- The table_description setter (source lines 132-140): assigns only
when isinstance(description, str); a None (or other non-string) value
is silently ignored.  The Optional models the dynamic isinstance test
per spec section 9. -/
def table_description_set (data : Val) (description : Option String) :
    Except PyErr Val :=
  match description with
  | some s => setInTable0 data "description" (.str s)
  | none => .ok data

/-- Labels rendered as the stored meta mapping value. -/
def labelsVal (ls : List (String × String)) : Val :=
  .map (ls.map (fun p => (p.1, Val.str p.2)))

/-- The table_labels setter (source lines 147-155): assigns only when
isinstance(labels, dict) and len(labels) > 0; None or an empty mapping
is silently ignored. -/
def table_labels_set (data : Val) (labels : Option (List (String × String))) :
    Except PyErr Val :=
  match labels with
  | some ls => if ls.length > 0 then setInTable0 data "meta" (labelsVal ls) else .ok data
  | none => .ok data

/-- The effect of one reconciliation field on one column entry: a
column whose name matches gets its description overwritten when the
field carries one; every other column is untouched. -/
def applyField (si : SchemaInfo) (c : Col) : Col :=
  if dictGet c "name" = some si.name then
    match si.description with
    | some d => dictSet c "description" d
    | none => c
  else c

/-- Number of column entries carrying a given name. -/
def countName (cs : List Col) (n : String) : Nat :=
  cs.countP (fun c => dictGet c "name" = some n)

/-- Every column entry has a "name" key. -/
def allNamed (cs : List Col) : Prop :=
  ∀ c ∈ cs, (dictGet c "name").isSome

theorem dictGet_dictSet_self (c : Col) (k v : String) :
    dictGet (dictSet c k v) k = some v := by
  induction c with
  | nil => simp [dictSet, dictGet]
  | cons p rest ih =>
    by_cases h : p.1 = k
    · simp [dictSet, dictGet, h]
    · simp [dictSet, dictGet, h, ih]

theorem dictGet_dictSet_ne (c : Col) {k k2 : String} (h : k ≠ k2) (v : String) :
    dictGet (dictSet c k v) k2 = dictGet c k2 := by
  induction c with
  | nil => simp [dictSet, dictGet, h]
  | cons p rest ih =>
    by_cases hp : p.1 = k
    · simp [dictSet, dictGet, hp, h]
    · simp [dictSet, dictGet, hp, ih]

theorem dictGet_name_applyField (si : SchemaInfo) (c : Col) :
    dictGet (applyField si c) "name" = dictGet c "name" := by
  unfold applyField
  by_cases h : dictGet c "name" = some si.name
  · rw [if_pos h]
    cases hd : si.description with
    | none => rfl
    | some d =>
      have : "description" ≠ "name" := by decide
      rw [dictGet_dictSet_ne _ this]
  · rw [if_neg h]

theorem applyField_of_ne {si : SchemaInfo} {c : Col}
    (h : dictGet c "name" ≠ some si.name) : applyField si c = c := by
  unfold applyField; rw [if_neg h]

theorem dictGet_name_newCol (si : SchemaInfo) :
    dictGet (newCol si) "name" = some si.name := by
  cases hd : si.description <;>
    simp [newCol, hd, dictGet, dictSet]

theorem countName_cons (c : Col) (cs : List Col) (n : String) :
    countName (c :: cs) n
      = countName cs n + (if dictGet c "name" = some n then 1 else 0) := by
  simp [countName, List.countP_cons]

theorem countName_append (cs ds : List Col) (n : String) :
    countName (cs ++ ds) n = countName cs n + countName ds n := by
  simp [countName, List.countP_append]

theorem countName_map_applyField (si : SchemaInfo) (cs : List Col) (n : String) :
    countName (cs.map (applyField si)) n = countName cs n := by
  induction cs with
  | nil => rfl
  | cons c rest ih =>
    simp only [List.map_cons, countName_cons, ih, dictGet_name_applyField]

theorem countName_pyInsert (cs : List Col) (pos : Nat) (c : Col) (n : String) :
    countName (pyInsert cs pos c) n
      = countName cs n + (if dictGet c "name" = some n then 1 else 0) := by
  have hsplit : countName cs n = countName (cs.take pos) n + countName (cs.drop pos) n := by
    conv_lhs => rw [← List.take_append_drop pos cs]
    exact countName_append _ _ _
  rw [pyInsert, countName_append, countName_cons, hsplit]
  omega

theorem countName_eq_zero_iff (cs : List Col) (n : String) :
    countName cs n = 0 ↔ ∀ c ∈ cs, dictGet c "name" ≠ some n := by
  induction cs with
  | nil => simp [countName]
  | cons c rest ih =>
    rw [countName_cons]
    by_cases h : dictGet c "name" = some n
    · simp [h]
    · simp [h, ih]

theorem mem_pyInsert_of_mem {cs : List Col} {x : Col} (pos : Nat) (c : Col)
    (h : x ∈ cs) : x ∈ pyInsert cs pos c := by
  rw [pyInsert]
  rcases (List.mem_append.mp (by rw [List.take_append_drop pos cs]; exact h)) with h1 | h1
  · exact List.mem_append.mpr (Or.inl h1)
  · exact List.mem_append.mpr (Or.inr (List.mem_cons_of_mem _ h1))

theorem mem_of_mem_pyInsert {cs : List Col} {x : Col} {pos : Nat} {c : Col}
    (h : x ∈ pyInsert cs pos c) : x ∈ cs ∨ x = c := by
  rw [pyInsert] at h
  rcases List.mem_append.mp h with h1 | h1
  · exact Or.inl (List.mem_of_mem_take h1)
  · rcases List.mem_cons.mp h1 with h2 | h2
    · exact Or.inr h2
    · exact Or.inl (List.mem_of_mem_drop h2)

theorem removeFirst_subset {cs : List Col} {c x : Col}
    (h : x ∈ removeFirst cs c) : x ∈ cs := by
  induction cs with
  | nil => simp [removeFirst] at h
  | cons y rest ih =>
    by_cases hy : y = c
    · rw [removeFirst, if_pos hy] at h
      exact List.mem_cons_of_mem _ h
    · rw [removeFirst, if_neg hy] at h
      rcases List.mem_cons.mp h with h1 | h1
      · exact h1 ▸ List.mem_cons_self _ _
      · exact List.mem_cons_of_mem _ (ih h1)

theorem mem_removeFirst_of_ne {cs : List Col} {c x : Col}
    (hx : x ∈ cs) (hne : x ≠ c) : x ∈ removeFirst cs c := by
  induction cs with
  | nil => simp at hx
  | cons y rest ih =>
    by_cases hy : y = c
    · rw [removeFirst, if_pos hy]
      rcases List.mem_cons.mp hx with h1 | h1
      · exact absurd (h1.trans hy) hne
      · exact h1
    · rw [removeFirst, if_neg hy]
      rcases List.mem_cons.mp hx with h1 | h1
      · exact h1 ▸ List.mem_cons_self _ _
      · exact List.mem_cons_of_mem _ (ih h1)

theorem countName_removeFirst {cs : List Col} {c : Col} {n : String}
    (h : dictGet c "name" ≠ some n) :
    countName (removeFirst cs c) n = countName cs n := by
  induction cs with
  | nil => rfl
  | cons y rest ih =>
    by_cases hy : y = c
    · rw [removeFirst, if_pos hy, countName_cons, hy, if_neg h]
      omega
    · rw [removeFirst, if_neg hy, countName_cons, countName_cons, ih]

theorem removeLoopAux_spec (names : List String) :
    ∀ (fuel : Nat) (cs : List Col) (i : Nat), allNamed cs →
    ∃ cs2, removeLoopAux names fuel cs i = .ok cs2 ∧ allNamed cs2 ∧
      (∀ x ∈ cs2, x ∈ cs) ∧
      (∀ n ∈ names, countName cs2 n = countName cs n) ∧
      (∀ x ∈ cs, ∀ n, dictGet x "name" = some n → n ∈ names → x ∈ cs2) := by
  intro fuel
  induction fuel with
  | zero =>
    intro cs i h
    exact ⟨cs, rfl, h, fun x hx => hx, fun n _ => rfl, fun x hx n _ _ => hx⟩
  | succ fuel1 ih =>
    intro cs i hAll
    by_cases hi : i < cs.length
    · have hcmem : cs.get ⟨i, hi⟩ ∈ cs := cs.get_mem _ _
      obtain ⟨nm, hnm⟩ := Option.isSome_iff_exists.mp (hAll _ hcmem)
      by_cases hmem : nm ∈ names
      · obtain ⟨cs2, heq, h1, h2, h3, h4⟩ := ih cs (i + 1) hAll
        refine ⟨cs2, ?_, h1, h2, h3, h4⟩
        simp only [removeLoopAux, dif_pos hi, hnm, if_pos hmem]
        exact heq
      · have hAll3 : allNamed (removeFirst cs (cs.get ⟨i, hi⟩)) :=
          fun x hx => hAll x (removeFirst_subset hx)
        obtain ⟨cs2, heq, h1, h2, h3, h4⟩ := ih (removeFirst cs (cs.get ⟨i, hi⟩)) (i + 1) hAll3
        refine ⟨cs2, ?_, h1, ?_, ?_, ?_⟩
        · simp only [removeLoopAux, dif_pos hi, hnm, if_neg hmem]
          exact heq
        · exact fun x hx => removeFirst_subset (h2 x hx)
        · intro n hn
          have hne : dictGet (cs.get ⟨i, hi⟩) "name" ≠ some n := by
            rw [hnm]
            intro hc
            exact hmem ((Option.some_injective _ hc) ▸ hn)
          rw [h3 n hn, countName_removeFirst hne]
        · intro x hx n hxn hn
          have hxne : x ≠ cs.get ⟨i, hi⟩ := by
            intro hcontra
            rw [hcontra, hnm] at hxn
            exact hmem ((Option.some_injective _ hxn) ▸ hn)
          exact h4 x (mem_removeFirst_of_ne hx hxne) n hxn hn
    · exact ⟨cs, by rw [removeLoopAux, dif_neg hi], hAll,
        fun x hx => hx, fun n _ => rfl, fun x hx n _ _ => hx⟩

theorem removeLoopAux_id (names : List String) :
    ∀ (fuel : Nat) (cs : List Col) (i : Nat),
    (∀ c ∈ cs, ∃ n, dictGet c "name" = some n ∧ n ∈ names) →
    removeLoopAux names fuel cs i = .ok cs := by
  intro fuel
  induction fuel with
  | zero => intro cs i _; rfl
  | succ fuel1 ih =>
    intro cs i hAll
    by_cases hi : i < cs.length
    · obtain ⟨nm, hnm, hmem⟩ := hAll _ (cs.get_mem i hi)
      simp only [removeLoopAux, dif_pos hi, hnm, if_pos hmem]
      exact ih cs (i + 1) hAll
    · rw [removeLoopAux, dif_neg hi]

theorem applyField_eq_match {si : SchemaInfo} {c : Col}
    (h : dictGet c "name" = some si.name) :
    applyField si c
      = (match si.description with
         | some d => dictSet c "description" d
         | none => c) := by
  unfold applyField; rw [if_pos h]

theorem map_applyField_of_zero {si : SchemaInfo} {cs : List Col}
    (hz : countName cs si.name = 0) : cs.map (applyField si) = cs := by
  induction cs with
  | nil => rfl
  | cons c rest ih =>
    rw [countName_cons] at hz
    have hc : dictGet c "name" ≠ some si.name := by
      intro h; rw [if_pos h] at hz; omega
    have hr : countName rest si.name = 0 := by
      by_cases h : dictGet c "name" = some si.name
      · exact absurd h hc
      · rw [if_neg h] at hz; omega
    rw [List.map_cons, applyField_of_ne hc, ih hr]

theorem scanField_spec (si : SchemaInfo) :
    ∀ (cs : List Col) (i : Nat) (has : Bool) (cursor : Nat), allNamed cs →
    ∃ b cur2, scanField si cs i has cursor = .ok (cs.map (applyField si), b, cur2) ∧
      b = (has || decide (0 < countName cs si.name)) ∧
      (countName cs si.name = 0 → cur2 = cursor) := by
  intro cs
  induction cs with
  | nil =>
    intro i has cursor _
    exact ⟨has, cursor, rfl, by simp [countName], fun _ => rfl⟩
  | cons c rest ih =>
    intro i has cursor hAll
    obtain ⟨nm, hnm⟩ :=
      Option.isSome_iff_exists.mp (hAll c (List.mem_cons_self _ _))
    have hAllr : allNamed rest := fun x hx => hAll x (List.mem_cons_of_mem _ hx)
    by_cases h : nm = si.name
    · have hc : dictGet c "name" = some si.name := by rw [hnm, h]
      have hcount : 0 < countName (c :: rest) si.name := by
        rw [countName_cons, if_pos hc]; omega
      obtain ⟨b, cur2, heq, hb, _⟩ := ih (i + 1) true i hAllr
      refine ⟨b, cur2, ?_, ?_, ?_⟩
      · simp only [scanField, hnm, if_pos h, heq, List.map_cons,
          applyField_eq_match hc]
      · rw [hb]
        simp [hcount]
      · intro hz; omega
    · have hc : dictGet c "name" ≠ some si.name := by
        rw [hnm]; intro hcontra
        exact h (Option.some_injective _ hcontra)
      have hcount : countName (c :: rest) si.name = countName rest si.name := by
        rw [countName_cons, if_neg hc]
        omega
      obtain ⟨b, cur2, heq, hb, hcur⟩ := ih (i + 1) has cursor hAllr
      refine ⟨b, cur2, ?_, ?_, ?_⟩
      · simp only [scanField, hnm, if_neg h, heq, List.map_cons,
          applyField_of_ne hc]
      · rw [hb, hcount]
      · intro hz; rw [hcount] at hz; exact hcur hz

theorem processField_found {si : SchemaInfo} {cs : List Col} (cursor : Nat)
    (hAll : allNamed cs) (hpos : 0 < countName cs si.name) :
    ∃ cur2, processField cs cursor si = .ok (cs.map (applyField si), cur2) := by
  obtain ⟨b, cur2, heq, hb, _⟩ := scanField_spec si cs 0 false cursor hAll
  have hbt : b = true := by rw [hb]; simp [hpos]
  exact ⟨cur2, by rw [processField, heq, hbt]; simp⟩

theorem processField_not_found {si : SchemaInfo} {cs : List Col} (cursor : Nat)
    (hAll : allNamed cs) (hz : countName cs si.name = 0) :
    processField cs cursor si
      = .ok (pyInsert cs (cursor + 1) (newCol si), cursor) := by
  obtain ⟨b, cur2, heq, hb, hcur⟩ := scanField_spec si cs 0 false cursor hAll
  have hbf : b = false := by rw [hb]; simp [hz]
  rw [processField, heq, hbf, hcur hz]
  simp [map_applyField_of_zero hz]

theorem updateFields_append (xs ys : List SchemaInfo) :
    ∀ (cs : List Col) (cursor : Nat),
    updateFields cs cursor (xs ++ ys)
      = match updateFields cs cursor xs with
        | .ok (cs1, cur1) => updateFields cs1 cur1 ys
        | .error e => .error e := by
  induction xs with
  | nil => intro cs cursor; rfl
  | cons si rest ih =>
    intro cs cursor
    rw [List.cons_append, updateFields, updateFields]
    cases processField cs cursor si with
    | ok p => exact ih p.1 p.2
    | error e => rfl

theorem allNamed_map_applyField {si : SchemaInfo} {cs : List Col}
    (hAll : allNamed cs) : allNamed (cs.map (applyField si)) := by
  intro x hx
  obtain ⟨c, hc, rfl⟩ := List.mem_map.mp hx
  rw [dictGet_name_applyField]
  exact hAll c hc

theorem allNamed_pyInsert {cs : List Col} {c : Col} (pos : Nat)
    (hAll : allNamed cs) (hc : (dictGet c "name").isSome) :
    allNamed (pyInsert cs pos c) := by
  intro x hx
  rcases mem_of_mem_pyInsert hx with h | h
  · exact hAll x h
  · rw [h]; exact hc

/-- Master lemma for the outer field loop and name multiplicities:
starting from a duplicate-free column list and duplicate-free field
names, after the loop every field name occurs exactly once, names not
belonging to any field keep their multiplicity, and the list stays
duplicate-free by name. -/
theorem updateFields_counts :
    ∀ (fields : List SchemaInfo) (cs : List Col) (cursor : Nat),
    allNamed cs → (∀ n, countName cs n ≤ 1) →
    (fields.map (fun f => f.name)).Nodup →
    ∃ cs1 cur1, updateFields cs cursor fields = .ok (cs1, cur1) ∧
      allNamed cs1 ∧ (∀ n, countName cs1 n ≤ 1) ∧
      (∀ f ∈ fields, countName cs1 f.name = 1) ∧
      (∀ n, n ∉ fields.map (fun f => f.name) → countName cs1 n = countName cs n) := by
  intro fields
  induction fields with
  | nil =>
    intro cs cursor hAll hle _
    exact ⟨cs, cursor, rfl, hAll, hle, by simp, fun n _ => rfl⟩
  | cons si rest ih =>
    intro cs cursor hAll hle hnd
    rw [List.map_cons, List.nodup_cons] at hnd
    obtain ⟨hsi, hndr⟩ := hnd
    by_cases hz : countName cs si.name = 0
    · have hstep := processField_not_found cursor hAll hz
      have hAll1 : allNamed (pyInsert cs (cursor + 1) (newCol si)) :=
        allNamed_pyInsert _ hAll (by rw [dictGet_name_newCol]; rfl)
      have hcnt1 : ∀ n, countName (pyInsert cs (cursor + 1) (newCol si)) n
          = countName cs n + (if si.name = n then 1 else 0) := by
        intro n
        rw [countName_pyInsert, dictGet_name_newCol]
        by_cases h : si.name = n
        · rw [if_pos h, if_pos (by rw [h])]
        · rw [if_neg h, if_neg (by intro hcontra; exact h (Option.some_injective _ hcontra))]
      have hle1 : ∀ n, countName (pyInsert cs (cursor + 1) (newCol si)) n ≤ 1 := by
        intro n
        rw [hcnt1]
        by_cases h : si.name = n
        · rw [if_pos h, ← h, hz]
        · rw [if_neg h]; have := hle n; omega
      obtain ⟨cs1, cur1, heq, h1, h2, h3, h4⟩ :=
        ih (pyInsert cs (cursor + 1) (newCol si)) cursor hAll1 hle1 hndr
      refine ⟨cs1, cur1, ?_, h1, h2, ?_, ?_⟩
      · rw [updateFields, hstep]; exact heq
      · intro f hf
        rcases List.mem_cons.mp hf with hfsi | hfr
        · rw [hfsi, h4 si.name hsi, hcnt1, if_pos rfl, hz]
        · exact h3 f hfr
      · intro n hn
        rw [List.map_cons, List.mem_cons] at hn
        push_neg at hn
        rw [h4 n hn.2, hcnt1, if_neg (fun hcontra => hn.1 hcontra.symm)]
        omega
    · have hpos : 0 < countName cs si.name := Nat.pos_of_ne_zero hz
      obtain ⟨cur2, hstep⟩ := processField_found cursor hAll hpos
      have hAll1 : allNamed (cs.map (applyField si)) := allNamed_map_applyField hAll
      have hcnt1 : ∀ n, countName (cs.map (applyField si)) n = countName cs n :=
        countName_map_applyField si cs
      obtain ⟨cs1, cur1, heq, h1, h2, h3, h4⟩ :=
        ih (cs.map (applyField si)) cur2 hAll1 (fun n => by rw [hcnt1]; exact hle n) hndr
      refine ⟨cs1, cur1, ?_, h1, h2, ?_, ?_⟩
      · rw [updateFields, hstep]; exact heq
      · intro f hf
        rcases List.mem_cons.mp hf with hfsi | hfr
        · rw [hfsi, h4 si.name hsi, hcnt1]
          have := hle si.name
          omega
        · exact h3 f hfr
      · intro n hn
        rw [List.map_cons, List.mem_cons] at hn
        push_neg at hn
        rw [h4 n hn.2, hcnt1]

/-- Master lemma for membership: every input column survives the field
loop as its image under the successive applyField passes. -/
theorem updateFields_mem :
    ∀ (fields : List SchemaInfo) (cs : List Col) (cursor : Nat),
    allNamed cs →
    ∃ cs1 cur1, updateFields cs cursor fields = .ok (cs1, cur1) ∧
      allNamed cs1 ∧
      (∀ c ∈ cs, fields.foldl (fun a f => applyField f a) c ∈ cs1) := by
  intro fields
  induction fields with
  | nil =>
    intro cs cursor hAll
    exact ⟨cs, cursor, rfl, hAll, by simp⟩
  | cons si rest ih =>
    intro cs cursor hAll
    by_cases hz : countName cs si.name = 0
    · have hstep := processField_not_found cursor hAll hz
      have hAll1 : allNamed (pyInsert cs (cursor + 1) (newCol si)) :=
        allNamed_pyInsert _ hAll (by rw [dictGet_name_newCol]; rfl)
      obtain ⟨cs1, cur1, heq, h1, h2⟩ :=
        ih (pyInsert cs (cursor + 1) (newCol si)) cursor hAll1
      refine ⟨cs1, cur1, ?_, h1, ?_⟩
      · rw [updateFields, hstep]; exact heq
      · intro c hc
        rw [List.foldl_cons]
        have hcz : dictGet c "name" ≠ some si.name :=
          (countName_eq_zero_iff cs si.name).mp hz c hc
        rw [applyField_of_ne hcz]
        exact h2 c (mem_pyInsert_of_mem _ _ hc)
    · have hpos : 0 < countName cs si.name := Nat.pos_of_ne_zero hz
      obtain ⟨cur2, hstep⟩ := processField_found cursor hAll hpos
      obtain ⟨cs1, cur1, heq, h1, h2⟩ :=
        ih (cs.map (applyField si)) cur2 (allNamed_map_applyField hAll)
      refine ⟨cs1, cur1, ?_, h1, ?_⟩
      · rw [updateFields, hstep]; exact heq
      · intro c hc
        rw [List.foldl_cons]
        exact h2 (applyField si c) (List.mem_map_of_mem _ hc)

/-- Master lemma for a name untouched by a run of fields: the
multiplicity of that name is preserved, and a description invariant on
all columns of that name is transported through the run. -/
theorem updateFields_untouched :
    ∀ (fields : List SchemaInfo) (cs : List Col) (cursor : Nat) (n : String)
      (v : Option String),
    allNamed cs → (∀ f ∈ fields, f.name ≠ n) →
    ∃ cs1 cur1, updateFields cs cursor fields = .ok (cs1, cur1) ∧
      allNamed cs1 ∧ countName cs1 n = countName cs n ∧
      ((∀ c ∈ cs, dictGet c "name" = some n → dictGet c "description" = v) →
        (∀ c ∈ cs1, dictGet c "name" = some n → dictGet c "description" = v)) := by
  intro fields
  induction fields with
  | nil =>
    intro cs cursor n v hAll _
    exact ⟨cs, cursor, rfl, hAll, rfl, fun h => h⟩
  | cons si rest ih =>
    intro cs cursor n v hAll hne
    have hsin : si.name ≠ n := hne si (List.mem_cons_self _ _)
    have hner : ∀ f ∈ rest, f.name ≠ n := fun f hf => hne f (List.mem_cons_of_mem _ hf)
    by_cases hz : countName cs si.name = 0
    · have hstep := processField_not_found cursor hAll hz
      have hAll1 : allNamed (pyInsert cs (cursor + 1) (newCol si)) :=
        allNamed_pyInsert _ hAll (by rw [dictGet_name_newCol]; rfl)
      obtain ⟨cs1, cur1, heq, h1, h2, h3⟩ :=
        ih (pyInsert cs (cursor + 1) (newCol si)) cursor n v hAll1 hner
      refine ⟨cs1, cur1, ?_, h1, ?_, ?_⟩
      · rw [updateFields, hstep]; exact heq
      · rw [h2, countName_pyInsert, dictGet_name_newCol,
          if_neg (fun hcontra => hsin (Option.some_injective _ hcontra))]
        omega
      · intro hinv
        refine h3 ?_
        intro c hc hcn
        rcases mem_of_mem_pyInsert hc with h | h
        · exact hinv c h hcn
        · rw [h, dictGet_name_newCol] at hcn
          exact absurd (Option.some_injective _ hcn) hsin
    · have hpos : 0 < countName cs si.name := Nat.pos_of_ne_zero hz
      obtain ⟨cur2, hstep⟩ := processField_found cursor hAll hpos
      obtain ⟨cs1, cur1, heq, h1, h2, h3⟩ :=
        ih (cs.map (applyField si)) cur2 n v (allNamed_map_applyField hAll) hner
      refine ⟨cs1, cur1, ?_, h1, ?_, ?_⟩
      · rw [updateFields, hstep]; exact heq
      · rw [h2, countName_map_applyField]
      · intro hinv
        refine h3 ?_
        intro c hc hcn
        obtain ⟨c0, hc0, rfl⟩ := List.mem_map.mp hc
        rw [dictGet_name_applyField] at hcn
        have hc0ne : dictGet c0 "name" ≠ some si.name := by
          rw [hcn]; intro hcontra
          exact hsin (Option.some_injective _ hcontra).symm
        rw [applyField_of_ne hc0ne]
        exact hinv c0 hc0 hcn

theorem foldl_applyField_id {n : String} :
    ∀ (gs : List SchemaInfo) (c : Col), (∀ g ∈ gs, g.name ≠ n) →
    dictGet c "name" = some n →
    gs.foldl (fun a f => applyField f a) c = c := by
  intro gs
  induction gs with
  | nil => intro c _ _; rfl
  | cons g rest ih =>
    intro c hne hc
    rw [List.foldl_cons]
    have hgc : dictGet c "name" ≠ some g.name := by
      rw [hc]; intro hcontra
      exact hne g (List.mem_cons_self _ _) (Option.some_injective _ hcontra).symm
    rw [applyField_of_ne hgc]
    exact ih c (fun x hx => hne x (List.mem_cons_of_mem _ hx)) hc

theorem foldl_applyField_single :
    ∀ (fields : List SchemaInfo) (f : SchemaInfo) (c : Col),
    (fields.map (fun g => g.name)).Nodup → f ∈ fields →
    dictGet c "name" = some f.name →
    fields.foldl (fun a g => applyField g a) c = applyField f c := by
  intro fields
  induction fields with
  | nil => intro f c _ hf _; simp at hf
  | cons g rest ih =>
    intro f c hnd hf hc
    rw [List.map_cons, List.nodup_cons] at hnd
    obtain ⟨hg, hndr⟩ := hnd
    rw [List.foldl_cons]
    rcases List.mem_cons.mp hf with hfg | hfr
    · subst hfg
      have hrest : ∀ x ∈ rest, x.name ≠ f.name := by
        intro x hx hcontra
        exact hg (hcontra ▸ List.mem_map_of_mem (fun g => g.name) hx)
      refine foldl_applyField_id rest (applyField f c) hrest ?_
      rw [dictGet_name_applyField, hc]
    · have hgf : g.name ≠ f.name := by
        intro hcontra
        exact hg (hcontra ▸ List.mem_map_of_mem (fun g => g.name) hfr)
      have hgc : dictGet c "name" ≠ some g.name := by
        rw [hc]; intro hcontra
        exact hgf (Option.some_injective _ hcontra).symm
      rw [applyField_of_ne hgc]
      exact ih f c hndr hfr hc

/-- Behavior of the field loop on a run of fields none of which occurs
in the current column list: every such field is inserted at position
cursor_index + 1 with cursor_index stuck at 0, so the freshly inserted
columns pile up in reverse field order right after the head column. -/
theorem updateFields_fresh :
    ∀ (gs : List SchemaInfo) (c1 : Col) (acc : List Col),
    allNamed (c1 :: acc) →
    (∀ g ∈ gs, ∀ c ∈ c1 :: acc, dictGet c "name" ≠ some g.name) →
    (gs.map (fun g => g.name)).Nodup →
    updateFields (c1 :: acc) 0 gs = .ok (c1 :: ((gs.map newCol).reverse ++ acc), 0) := by
  intro gs
  induction gs with
  | nil => intro c1 acc _ _ _; simp [updateFields]
  | cons g rest ih =>
    intro c1 acc hAll hfresh hnd
    rw [List.map_cons, List.nodup_cons] at hnd
    obtain ⟨hg, hndr⟩ := hnd
    have hz : countName (c1 :: acc) g.name = 0 :=
      (countName_eq_zero_iff _ _).mpr
        (fun c hc => hfresh g (List.mem_cons_self _ _) c hc)
    have hstep := processField_not_found 0 hAll hz
    have hins : pyInsert (c1 :: acc) 1 (newCol g) = c1 :: newCol g :: acc := by
      simp [pyInsert]
    have hAll1 : allNamed (c1 :: newCol g :: acc) := by
      intro x hx
      rcases List.mem_cons.mp hx with h | h
      · exact hAll x (h ▸ List.mem_cons_self _ _)
      · rcases List.mem_cons.mp h with h2 | h2
        · rw [h2, dictGet_name_newCol]; rfl
        · exact hAll x (List.mem_cons_of_mem _ h2)
    have hfresh1 : ∀ r ∈ rest, ∀ c ∈ c1 :: newCol g :: acc,
        dictGet c "name" ≠ some r.name := by
      intro r hr c hc
      rcases List.mem_cons.mp hc with h | h
      · exact h ▸ hfresh r (List.mem_cons_of_mem _ hr) c1 (List.mem_cons_self _ _)
      · rcases List.mem_cons.mp h with h2 | h2
        · rw [h2, dictGet_name_newCol]
          intro hcontra
          exact hg ((Option.some_injective _ hcontra) ▸
            List.mem_map_of_mem (fun g => g.name) hr)
        · exact hfresh r (List.mem_cons_of_mem _ hr) c
            (List.mem_cons_of_mem _ h2)
    rw [updateFields, hstep]
    show updateFields (c1 :: newCol g :: acc) 0 rest = _
    rw [ih c1 (newCol g :: acc) hAll1 hfresh1 hndr]
    simp

theorem countName_eq_count (cs : List Col) (n : String) :
    countName cs n = (cs.filterMap (fun c => dictGet c "name")).count n := by
  induction cs with
  | nil => rfl
  | cons c rest ih =>
    rw [countName_cons]
    cases hc : dictGet c "name" with
    | none => simp [List.filterMap_cons, hc, ih]
    | some m =>
      simp only [List.filterMap_cons, hc, List.count_cons, ih]
      by_cases h : m = n
      · simp [h]
      · simp [h]

theorem countName_le_one_of_nodup {cs : List Col}
    (h : (cs.filterMap (fun c => dictGet c "name")).Nodup) :
    ∀ n, countName cs n ≤ 1 := by
  intro n
  rw [countName_eq_count]
  exact List.nodup_iff_count_le_one.mp h n

/-- C1: the claim states that the final removal pass of update_columns
is a pure name-set membership filter whose effect does not depend on
the positions of the stale entries, removing in particular both of two
adjacent stale columns.  The code iterates over the live list while
removing from it, so the element that slides into the position of a
removed one is skipped: with stale neighbours s1 and s2, only s1 is
removed and s2 survives, as this evaluation of the code shows. -/
theorem update_columns_adjacent_stale_bug :
    update_columns
        [[("name", "a")], [("name", "s1")], [("name", "s2")], [("name", "b")]]
        [⟨"a", none⟩, ⟨"b", none⟩]
      = .ok [[("name", "a")], [("name", "s2")], [("name", "b")]]
    ∧ "s2" ∉ ([⟨"a", none⟩, ⟨"b", none⟩] : List SchemaInfo).map (fun f => f.name) :=
  ⟨rfl, by decide⟩

/-- C4: the claim states update_columns is idempotent.  Because the
buggy removal pass can leave a stale column behind (see C1), a second
application can remove strictly more: on two stale columns and an empty
field list the first application returns one leftover column and the
second application removes it. -/
theorem update_columns_not_idempotent :
    update_columns [[("name", "a")], [("name", "b")]] [] = .ok [[("name", "b")]]
    ∧ update_columns [[("name", "b")]] [] = .ok ([] : List Col)
    ∧ [[("name", "b")]] ≠ ([] : List Col) :=
  ⟨rfl, rfl, by decide⟩

/-- C2 counterexample: the claim states that a contiguous run of newly
inserted fields appears in the result in newFields order.  Starting
from an empty column list with three fresh fields a, b, c the code
yields a, c, b: cursor_index is never advanced after an insertion, so
b and c are both inserted at position cursor_index + 1 = 1. -/
theorem update_columns_run_order_cex :
    update_columns [] [⟨"a", none⟩, ⟨"b", none⟩, ⟨"c", none⟩]
      = .ok [[("name", "a")], [("name", "c")], [("name", "b")]]
    ∧ [[("name", "a")], [("name", "c")], [("name", "b")]]
      ≠ ([[("name", "a")], [("name", "b")], [("name", "c")]] : List Col) :=
  ⟨rfl, by decide⟩

/-- C2 amended: a new column is inserted at cursor_index + 1 and
cursor_index is NOT advanced, so a contiguous run of fields that are
all newly inserted appears in reverse field order, not field order:
starting from an empty column list, the result is the first field
followed by the remaining fields reversed. -/
theorem update_columns_fresh_run_reversed (f : SchemaInfo) (rest : List SchemaInfo)
    (hnd : ((f :: rest).map (fun g => g.name)).Nodup) :
    update_columns [] (f :: rest) = .ok (newCol f :: (rest.map newCol).reverse) := by
  rw [List.map_cons, List.nodup_cons] at hnd
  obtain ⟨hf, hndr⟩ := hnd
  have hz : countName [] f.name = 0 := rfl
  have hstep := processField_not_found 0 (fun c hc => by simp at hc) hz
  have hAll1 : allNamed [newCol f] := by
    intro x hx
    rcases List.mem_cons.mp hx with h | h
    · rw [h, dictGet_name_newCol]; rfl
    · simp at h
  have hfresh : ∀ g ∈ rest, ∀ c ∈ ([newCol f] : List Col),
      dictGet c "name" ≠ some g.name := by
    intro g hg c hc
    rcases List.mem_cons.mp hc with h | h
    · rw [h, dictGet_name_newCol]
      intro hcontra
      exact hf ((Option.some_injective _ hcontra).symm ▸ List.mem_map_of_mem _ hg)
    · simp at h
  have hUF : updateFields [] 0 (f :: rest)
      = .ok (newCol f :: (rest.map newCol).reverse, 0) := by
    rw [updateFields, hstep]
    show updateFields [newCol f] 0 rest = _
    rw [updateFields_fresh rest (newCol f) [] hAll1 hfresh hndr]
    simp
  unfold update_columns
  rw [hUF]
  show removeLoop _ _ = _
  have hmemnames : ∀ c ∈ newCol f :: (rest.map newCol).reverse,
      ∃ n, dictGet c "name" = some n
        ∧ n ∈ (f :: rest).map (fun g => g.name) := by
    intro c hc
    rcases List.mem_cons.mp hc with h | h
    · exact ⟨f.name, by rw [h, dictGet_name_newCol],
        List.mem_map_of_mem _ (List.mem_cons_self _ _)⟩
    · rw [List.mem_reverse] at h
      obtain ⟨g, hg, rfl⟩ := List.mem_map.mp h
      exact ⟨g.name, dictGet_name_newCol g,
        List.mem_map_of_mem _ (List.mem_cons_of_mem _ hg)⟩
  rw [removeLoop, removeLoopAux_id _ _ _ _ hmemnames]

/-- C2 amended, witness: three fresh fields x, y, z on an empty column
list come out as x, z, y. -/
theorem update_columns_fresh_run_reversed_witness :
    update_columns [] [⟨"x", none⟩, ⟨"y", none⟩, ⟨"z", none⟩]
      = .ok [[("name", "x")], [("name", "z")], [("name", "y")]] :=
  update_columns_fresh_run_reversed ⟨"x", none⟩ [⟨"y", none⟩, ⟨"z", none⟩] (by decide)

/-- C5: under unique names in the existing column list and unique names
in newFields, every field name occurs exactly once in the result of
update_columns: matched names are neither dropped nor duplicated and
each unmatched field is inserted exactly once. -/
theorem update_columns_each_field_once (cs : List Col) (fields : List SchemaInfo)
    (hAll : allNamed cs)
    (hcs : (cs.filterMap (fun c => dictGet c "name")).Nodup)
    (hf : (fields.map (fun f => f.name)).Nodup) :
    ∃ cs2, update_columns cs fields = .ok cs2 ∧
      ∀ f ∈ fields, countName cs2 f.name = 1 := by
  obtain ⟨cs1, cur1, hUF, hAll1, _, h3, _⟩ :=
    updateFields_counts fields cs 0 hAll (countName_le_one_of_nodup hcs) hf
  obtain ⟨cs2, hRL, _, _, hcnt, _⟩ :=
    removeLoopAux_spec (fields.map (fun f => f.name)) cs1.length cs1 0 hAll1
  refine ⟨cs2, ?_, ?_⟩
  · unfold update_columns
    rw [hUF]
    show removeLoop _ _ = _
    rw [removeLoop]
    exact hRL
  · intro f hfm
    rw [hcnt f.name (List.mem_map_of_mem _ hfm), h3 f hfm]

/-- C5 witness: one matched and one fresh field on a one-column list,
each field name ends up occurring exactly once. -/
theorem update_columns_each_field_once_witness :
    ∃ cs2, update_columns [[("name", "a"), ("description", "old")]]
        [⟨"a", some "new"⟩, ⟨"b", none⟩] = .ok cs2 ∧
      ∀ f ∈ [(⟨"a", some "new"⟩ : SchemaInfo), ⟨"b", none⟩],
        countName cs2 f.name = 1 :=
  update_columns_each_field_once _ _
    (by unfold allNamed; decide) (by decide) (by decide)

/-- C6: a column matched by name to a field keeps its prior description
verbatim when the field description is null, and gets it overwritten
when the field description is a string. -/
theorem update_columns_description_preservation
    (cs : List Col) (fields : List SchemaInfo) (c : Col) (f : SchemaInfo)
    (hAll : allNamed cs) (hnd : (fields.map (fun g => g.name)).Nodup)
    (hc : c ∈ cs) (hfm : f ∈ fields) (hname : dictGet c "name" = some f.name) :
    ∃ cs2, update_columns cs fields = .ok cs2 ∧
      ∃ c2 ∈ cs2, dictGet c2 "name" = some f.name ∧
        dictGet c2 "description"
          = (match f.description with
             | some d => some d
             | none => dictGet c "description") := by
  obtain ⟨cs1, cur1, hUF, hAll1, hmem⟩ := updateFields_mem fields cs 0 hAll
  obtain ⟨cs2, hRL, _, _, _, hkeep⟩ :=
    removeLoopAux_spec (fields.map (fun g => g.name)) cs1.length cs1 0 hAll1
  have hfold := foldl_applyField_single fields f c hnd hfm hname
  have hc1 : applyField f c ∈ cs1 := hfold ▸ hmem c hc
  have hname2 : dictGet (applyField f c) "name" = some f.name := by
    rw [dictGet_name_applyField, hname]
  have hc2 : applyField f c ∈ cs2 :=
    hkeep _ hc1 f.name hname2 (List.mem_map_of_mem _ hfm)
  refine ⟨cs2, ?_, applyField f c, hc2, hname2, ?_⟩
  · unfold update_columns
    rw [hUF]
    show removeLoop _ _ = _
    rw [removeLoop]
    exact hRL
  · rw [applyField_eq_match hname]
    cases hfd : f.description with
    | some d => exact dictGet_dictSet_self _ _ _
    | none => rfl

/-- C6 witness: a null field description leaves a human-written
description untouched. -/
theorem update_columns_description_preservation_witness :
    ∃ cs2, update_columns [[("name", "a"), ("description", "human text")]]
        [⟨"a", none⟩] = .ok cs2 ∧
      ∃ c2 ∈ cs2, dictGet c2 "name" = some "a" ∧
        dictGet c2 "description" = some "human text" :=
  update_columns_description_preservation
    [[("name", "a"), ("description", "human text")]] [⟨"a", none⟩]
    [("name", "a"), ("description", "human text")] ⟨"a", none⟩
    (by unfold allNamed; decide) (by decide) (by decide) (by decide) (by decide)

/-- C10: update_columns modifies no key of a retained matched column
other than "description": the survivor is exactly the applyField image
of the original entry, whose name and extra keys it keeps verbatim. -/
theorem update_columns_frame
    (cs : List Col) (fields : List SchemaInfo) (c : Col) (f : SchemaInfo)
    (hAll : allNamed cs) (hnd : (fields.map (fun g => g.name)).Nodup)
    (hc : c ∈ cs) (hfm : f ∈ fields) (hname : dictGet c "name" = some f.name) :
    ∃ cs2, update_columns cs fields = .ok cs2 ∧
      applyField f c ∈ cs2 ∧
      dictGet (applyField f c) "name" = dictGet c "name" ∧
      (∀ k, k ≠ "description" → dictGet (applyField f c) k = dictGet c k) := by
  obtain ⟨cs1, cur1, hUF, hAll1, hmem⟩ := updateFields_mem fields cs 0 hAll
  obtain ⟨cs2, hRL, _, _, _, hkeep⟩ :=
    removeLoopAux_spec (fields.map (fun g => g.name)) cs1.length cs1 0 hAll1
  have hfold := foldl_applyField_single fields f c hnd hfm hname
  have hc1 : applyField f c ∈ cs1 := hfold ▸ hmem c hc
  have hname2 : dictGet (applyField f c) "name" = some f.name := by
    rw [dictGet_name_applyField, hname]
  have hc2 : applyField f c ∈ cs2 :=
    hkeep _ hc1 f.name hname2 (List.mem_map_of_mem _ hfm)
  refine ⟨cs2, ?_, hc2, dictGet_name_applyField f c, ?_⟩
  · unfold update_columns
    rw [hUF]
    show removeLoop _ _ = _
    rw [removeLoop]
    exact hRL
  · intro k hk
    rw [applyField_eq_match hname]
    cases hfd : f.description with
    | some d => exact dictGet_dictSet_ne _ (Ne.symm hk) _
    | none => rfl

/-- C10 witness: a matched column with an extra key keeps its name and
extra key verbatim, only the description is touched. -/
theorem update_columns_frame_witness :
    ∃ cs2, update_columns [[("name", "a"), ("foo", "bar")]]
        [⟨"a", some "d1"⟩] = .ok cs2 ∧
      applyField ⟨"a", some "d1"⟩ [("name", "a"), ("foo", "bar")] ∈ cs2 ∧
      dictGet (applyField ⟨"a", some "d1"⟩ [("name", "a"), ("foo", "bar")]) "name"
        = dictGet [("name", "a"), ("foo", "bar")] "name" ∧
      (∀ k, k ≠ "description" →
        dictGet (applyField ⟨"a", some "d1"⟩ [("name", "a"), ("foo", "bar")]) k
          = dictGet [("name", "a"), ("foo", "bar")] k) :=
  update_columns_frame [[("name", "a"), ("foo", "bar")]] [⟨"a", some "d1"⟩]
    [("name", "a"), ("foo", "bar")] ⟨"a", some "d1"⟩
    (by unfold allNamed; decide) (by decide) (by decide) (by decide) (by decide)

/-- C8: when several existing columns share the name of a field whose
description is a string, the scan does not stop at the first match:
after update_columns every column of that name carries the field
description, and the multiplicity of the name is unchanged. -/
theorem update_columns_all_matches_overwritten
    (cs : List Col) (fields : List SchemaInfo) (f : SchemaInfo) (d : String)
    (hAll : allNamed cs) (hnd : (fields.map (fun g => g.name)).Nodup)
    (hfm : f ∈ fields) (hd : f.description = some d)
    (hdup : 2 ≤ countName cs f.name) :
    ∃ cs2, update_columns cs fields = .ok cs2 ∧
      countName cs2 f.name = countName cs f.name ∧
      ∀ c ∈ cs2, dictGet c "name" = some f.name →
        dictGet c "description" = some d := by
  obtain ⟨pre, post, rfl⟩ := List.append_of_mem hfm
  rw [List.map_append, List.map_cons] at hnd
  obtain ⟨h1, h2, hdisj⟩ := List.nodup_append.mp hnd
  have hfpost : f.name ∉ post.map (fun g => g.name) := (List.nodup_cons.mp h2).1
  have hfpre : f.name ∉ pre.map (fun g => g.name) :=
    fun hmem => hdisj hmem (List.mem_cons_self _ _)
  have hpre : ∀ g ∈ pre, g.name ≠ f.name := by
    intro g hg hcontra
    exact hfpre (hcontra ▸ List.mem_map_of_mem (fun g => g.name) hg)
  have hpost : ∀ g ∈ post, g.name ≠ f.name := by
    intro g hg hcontra
    exact hfpost (hcontra ▸ List.mem_map_of_mem (fun g => g.name) hg)
  obtain ⟨cs1, cur1, hUF1, hAll1, hcnt1, _⟩ :=
    updateFields_untouched pre cs 0 f.name (some d) hAll hpre
  have hpos : 0 < countName cs1 f.name := by rw [hcnt1]; omega
  obtain ⟨cur2, hstep⟩ := processField_found cur1 hAll1 hpos
  have hAll2 : allNamed (cs1.map (applyField f)) := allNamed_map_applyField hAll1
  have hQ2 : ∀ c ∈ cs1.map (applyField f), dictGet c "name" = some f.name →
      dictGet c "description" = some d := by
    intro c hcm hcn
    obtain ⟨c0, hc0, rfl⟩ := List.mem_map.mp hcm
    rw [dictGet_name_applyField] at hcn
    rw [applyField_eq_match hcn, hd]
    exact dictGet_dictSet_self _ _ _
  obtain ⟨cs3, cur3, hUF3, hAll3, hcnt3, hQ3⟩ :=
    updateFields_untouched post (cs1.map (applyField f)) cur2 f.name (some d) hAll2 hpost
  have hUF : updateFields cs 0 (pre ++ f :: post) = .ok (cs3, cur3) := by
    rw [updateFields_append, hUF1]
    show updateFields cs1 cur1 (f :: post) = _
    rw [updateFields, hstep]
    show updateFields (cs1.map (applyField f)) cur2 post = _
    exact hUF3
  obtain ⟨cs4, hRL, _, hsub, hcntR, _⟩ :=
    removeLoopAux_spec ((pre ++ f :: post).map (fun g => g.name)) cs3.length cs3 0 hAll3
  refine ⟨cs4, ?_, ?_, ?_⟩
  · unfold update_columns
    rw [hUF]
    show removeLoop _ _ = _
    rw [removeLoop]
    exact hRL
  · rw [hcntR f.name (List.mem_map_of_mem _ hfm), hcnt3,
      countName_map_applyField, hcnt1]
  · intro c hcm hcn
    exact hQ3 hQ2 c (hsub c hcm) hcn

/-- C8 witness: two duplicate columns named a both get the new
description, and both survive. -/
theorem update_columns_all_matches_overwritten_witness :
    ∃ cs2, update_columns
        [[("name", "a"), ("description", "x")], [("name", "a"), ("description", "y")]]
        [⟨"a", some "z"⟩] = .ok cs2 ∧
      countName cs2 "a" = countName
        [[("name", "a"), ("description", "x")], [("name", "a"), ("description", "y")]] "a" ∧
      ∀ c ∈ cs2, dictGet c "name" = some "a" →
        dictGet c "description" = some "z" :=
  update_columns_all_matches_overwritten
    [[("name", "a"), ("description", "x")], [("name", "a"), ("description", "y")]]
    [⟨"a", some "z"⟩] ⟨"a", some "z"⟩ "z"
    (by unfold allNamed; decide) (by decide) (by decide) (by decide) (by decide)

theorem hasKey_eq_isSome_lookupKey (m : List (String × Val)) (k : String) :
    Val.hasKey (.map m) k = (lookupKey m k).isSome := by
  induction m with
  | nil => rfl
  | cons p rest ih =>
    by_cases h : p.1 = k
    · simp [Val.hasKey, lookupKey, h]
    · simp only [Val.hasKey, lookupKey] at ih ⊢
      simp [h, ih]

theorem getKey_map {m : List (String × Val)} {k : String} {v : Val}
    (h : lookupKey m k = some v) : (Val.map m).getKey k = .ok v := by
  simp [Val.getKey, h]

theorem getKey_map_none {m : List (String × Val)} {k : String}
    (h : lookupKey m k = none) :
    (Val.map m).getKey k = .error (.keyError k) := by
  simp [Val.getKey, h]

theorem lookupKey_mapSetKey_self (m : List (String × Val)) (k : String) (v : Val) :
    lookupKey (mapSetKey m k v) k = some v := by
  induction m with
  | nil => simp [mapSetKey, lookupKey]
  | cons p rest ih =>
    by_cases h : p.1 = k
    · simp [mapSetKey, lookupKey, h]
    · simp [mapSetKey, lookupKey, h, ih]

/-- C3 counterexample: the claim states validation rejects a tables
entry count of zero with a ShapeError.  A document whose single source
has an empty tables list passes validate_sources, as the evaluation
shows: the code only rejects counts greater than one. -/
theorem validate_sources_zero_tables_cex :
    validate_sources (.map [("sources", .seq [.map [("tables", .seq [])]])]) = .ok true
    ∧ (Val.map [("tables", Val.seq [])]).getKey "tables" = .ok (.seq [])
    ∧ (Val.seq []).lenV = 0 :=
  ⟨rfl, rfl, rfl⟩

/-- C3 amended: validate_sources raises a ShapeError for a missing
sources key, more than one source, a missing tables key, or more than
one table; a document with an empty sources list instead fails with an
IndexError (not a ShapeError), and a document whose single source has
an empty (or one-entry) tables list is accepted. -/
theorem validate_sources_characterization :
    (∀ m : List (String × Val), Val.hasKey (.map m) "sources" = false →
      validate_sources (.map m) = .error (.valueError "not a dbt source YAML"))
    ∧ (∀ (m : List (String × Val)) (ss : List Val),
        lookupKey m "sources" = some (.seq ss) → 2 ≤ ss.length →
        validate_sources (.map m) = .error (.valueError "contains multiple datasets"))
    ∧ (∀ m : List (String × Val), lookupKey m "sources" = some (.seq []) →
        validate_sources (.map m) = .error .indexError)
    ∧ (∀ (m s0 : List (String × Val)),
        lookupKey m "sources" = some (.seq [.map s0]) →
        Val.hasKey (.map s0) "tables" = false →
        validate_sources (.map m) = .error (.valueError "no tables"))
    ∧ (∀ (m s0 : List (String × Val)) (ts : List Val),
        lookupKey m "sources" = some (.seq [.map s0]) →
        lookupKey s0 "tables" = some (.seq ts) → 2 ≤ ts.length →
        validate_sources (.map m) = .error (.valueError "contains multiple tables"))
    ∧ (∀ (m s0 : List (String × Val)) (ts : List Val),
        lookupKey m "sources" = some (.seq [.map s0]) →
        lookupKey s0 "tables" = some (.seq ts) → ts.length ≤ 1 →
        validate_sources (.map m) = .ok true) := by
  refine ⟨?_, ?_, ?_, ?_, ?_, ?_⟩
  · intro m h
    rw [validate_sources, if_pos (by rw [h])]
  · intro m ss hs hlen
    rw [validate_sources,
      if_neg (by rw [hasKey_eq_isSome_lookupKey, hs]; simp),
      getKey_map hs]
    show (if (Val.seq ss).lenV > 1 then _ else _) = _
    rw [if_pos (by simpa [Val.lenV] using hlen)]
  · intro m hs
    rw [validate_sources,
      if_neg (by rw [hasKey_eq_isSome_lookupKey, hs]; simp),
      getKey_map hs]
    show (if (Val.seq []).lenV > 1 then _ else _) = _
    rw [if_neg (by simp [Val.lenV])]
    rfl
  · intro m s0 hs ht
    rw [validate_sources,
      if_neg (by rw [hasKey_eq_isSome_lookupKey, hs]; simp),
      getKey_map hs]
    show (if (Val.seq [.map s0]).lenV > 1 then _ else _) = _
    rw [if_neg (by simp [Val.lenV])]
    show (match (Val.seq [.map s0]).getIdx 0 with
      | .error e => Except.error e
      | .ok s1 => _) = _
    have hidx : (Val.seq [.map s0]).getIdx 0 = .ok (.map s0) := rfl
    rw [hidx]
    show (if (Val.map s0).hasKey "tables" = false then _ else _) = _
    rw [if_pos (by rw [ht])]
  · intro m s0 ts hs ht hlen
    rw [validate_sources,
      if_neg (by rw [hasKey_eq_isSome_lookupKey, hs]; simp),
      getKey_map hs]
    show (if (Val.seq [.map s0]).lenV > 1 then _ else _) = _
    rw [if_neg (by simp [Val.lenV])]
    show (match (Val.seq [.map s0]).getIdx 0 with
      | .error e => Except.error e
      | .ok s1 => _) = _
    have hidx : (Val.seq [.map s0]).getIdx 0 = .ok (.map s0) := rfl
    rw [hidx]
    show (if (Val.map s0).hasKey "tables" = false then _ else _) = _
    rw [if_neg (by rw [hasKey_eq_isSome_lookupKey, ht]; simp)]
    show (match (Val.map s0).getKey "tables" with
      | .error e => Except.error e
      | .ok tables => _) = _
    rw [getKey_map ht]
    show (if (Val.seq ts).lenV > 1 then _ else _) = _
    rw [if_pos (by simpa [Val.lenV] using hlen)]
  · intro m s0 ts hs ht hlen
    rw [validate_sources,
      if_neg (by rw [hasKey_eq_isSome_lookupKey, hs]; simp),
      getKey_map hs]
    show (if (Val.seq [.map s0]).lenV > 1 then _ else _) = _
    rw [if_neg (by simp [Val.lenV])]
    show (match (Val.seq [.map s0]).getIdx 0 with
      | .error e => Except.error e
      | .ok s1 => _) = _
    have hidx : (Val.seq [.map s0]).getIdx 0 = .ok (.map s0) := rfl
    rw [hidx]
    show (if (Val.map s0).hasKey "tables" = false then _ else _) = _
    rw [if_neg (by rw [hasKey_eq_isSome_lookupKey, ht]; simp)]
    show (match (Val.map s0).getKey "tables" with
      | .error e => Except.error e
      | .ok tables => _) = _
    rw [getKey_map ht]
    show (if (Val.seq ts).lenV > 1 then _ else _) = _
    rw [if_neg (by simp [Val.lenV]; omega)]

/-- C3 amended, witness: a well-shaped one-source one-table document is
accepted. -/
theorem validate_sources_characterization_witness :
    validate_sources
        (.map [("sources", .seq [.map [("tables", .seq [.map []])]])]) = .ok true :=
  validate_sources_characterization.2.2.2.2.2
    [("sources", .seq [.map [("tables", .seq [.map []])]])]
    [("tables", .seq [.map []])] [.map []] rfl rfl (by decide)

/-- C9: on a validated single-table document, the table_description
getter raises a KeyError when the table mapping has no description key,
rather than returning an absent value, and the table_labels getter
likewise raises a KeyError when the meta key is absent. -/
theorem getters_keyerror_on_missing
    (m s0 t0 : List (String × Val))
    (hs : lookupKey m "sources" = some (.seq [.map s0]))
    (ht : lookupKey s0 "tables" = some (.seq [.map t0]))
    (_hvalidated : validate_sources (.map m) = .ok true)
    (hdesc : lookupKey t0 "description" = none)
    (hmeta : lookupKey t0 "meta" = none) :
    table_description (.map m) = .error (.keyError "description")
    ∧ table_labels (.map m) = .error (.keyError "meta") := by
  constructor
  · rw [table_description, getKey_map hs]
    show (match (Val.map s0).getKey "tables" with
      | .error e => Except.error e
      | .ok t => _) = _
    rw [getKey_map ht]
    show (Val.map t0).getKey "description" = _
    exact getKey_map_none hdesc
  · rw [table_labels, getKey_map hs]
    show (match (Val.map s0).getKey "tables" with
      | .error e => Except.error e
      | .ok t => _) = _
    rw [getKey_map ht]
    show (Val.map t0).getKey "meta" = _
    exact getKey_map_none hmeta

/-- C9 witness: a validated document whose table carries only a name
yields KeyError from both getters. -/
theorem getters_keyerror_on_missing_witness :
    table_description
        (.map [("sources", .seq [.map [("tables", .seq [.map [("name", .str "t")]])]])])
      = .error (.keyError "description")
    ∧ table_labels
        (.map [("sources", .seq [.map [("tables", .seq [.map [("name", .str "t")]])]])])
      = .error (.keyError "meta") :=
  getters_keyerror_on_missing
    [("sources", .seq [.map [("tables", .seq [.map [("name", .str "t")]])]])]
    [("tables", .seq [.map [("name", .str "t")]])]
    [("name", .str "t")] rfl rfl rfl rfl rfl

/-- C7 counterexample: the claim states the description setter (and
update_with_bq_table, which delegates to it) never clears an existing
table description when the supplied value is null or empty.  The code
tests isinstance(description, str) and the empty string is a string,
so supplying the empty string overwrites the stored description "old"
with the empty string. -/
theorem table_description_set_empty_clears_cex :
    table_description
        (.map [("sources", .seq [.map [("tables", .seq [.map [("description", .str "old")]])]])])
      = .ok (.str "old")
    ∧ table_description_set
        (.map [("sources", .seq [.map [("tables", .seq [.map [("description", .str "old")]])]])])
        (some "")
      = .ok (.map [("sources", .seq [.map [("tables", .seq [.map [("description", .str "")]])]])])
    ∧ table_description
        (.map [("sources", .seq [.map [("tables", .seq [.map [("description", .str "")]])]])])
      = .ok (.str "") :=
  ⟨rfl, rfl, rfl⟩

/-- Computation of the nested table-level assignment on a well-shaped
document. -/
theorem setInTable0_spec (m s0 t0 : List (String × Val)) (k : String) (v : Val)
    (hs : lookupKey m "sources" = some (.seq [.map s0]))
    (ht : lookupKey s0 "tables" = some (.seq [.map t0])) :
    setInTable0 (.map m) k v
      = .ok (.map (mapSetKey m "sources"
          (.seq [.map (mapSetKey s0 "tables"
            (.seq [.map (mapSetKey t0 k v)]))]))) := by
  rw [setInTable0, getKey_map hs]
  show (match (Val.map s0).getKey "tables" with
    | .error e => Except.error e
    | .ok t => _) = _
  rw [getKey_map ht]
  rfl

/-- C7 amended: the description setter stores any supplied string
verbatim, including the empty string, which therefore does clear an
existing description; only a null non-string value is ignored.  The
labels setter leaves the meta key untouched for a null or empty
mapping and stores a non-empty mapping.  Invalid setter input never
raises: the document is returned unchanged.  update_with_bq_table
delegates description and labels handling to exactly these setters. -/
theorem setters_amended
    (m s0 t0 : List (String × Val))
    (hs : lookupKey m "sources" = some (.seq [.map s0]))
    (ht : lookupKey s0 "tables" = some (.seq [.map t0])) :
    table_description_set (.map m) none = .ok (.map m)
    ∧ (∀ s : String, ∃ data2,
        table_description_set (.map m) (some s) = .ok data2 ∧
        table_description data2 = .ok (.str s))
    ∧ table_labels_set (.map m) none = .ok (.map m)
    ∧ table_labels_set (.map m) (some []) = .ok (.map m)
    ∧ (∀ ls : List (String × String), 0 < ls.length →
        ∃ data2, table_labels_set (.map m) (some ls) = .ok data2 ∧
          table_labels data2 = .ok (labelsVal ls)) := by
  refine ⟨rfl, ?_, rfl, rfl, ?_⟩
  · intro s
    refine ⟨_, setInTable0_spec m s0 t0 "description" (.str s) hs ht, ?_⟩
    rw [table_description,
      getKey_map (lookupKey_mapSetKey_self m "sources" _)]
    show (match (Val.map (mapSetKey s0 "tables"
        (.seq [.map (mapSetKey t0 "description" (.str s))]))).getKey "tables" with
      | .error e => Except.error e
      | .ok t => _) = _
    rw [getKey_map (lookupKey_mapSetKey_self s0 "tables" _)]
    show (Val.map (mapSetKey t0 "description" (.str s))).getKey "description" = _
    rw [getKey_map (lookupKey_mapSetKey_self t0 "description" _)]
  · intro ls hlen
    have hset : table_labels_set (.map m) (some ls)
        = setInTable0 (.map m) "meta" (labelsVal ls) := by
      rw [table_labels_set, if_pos hlen]
    refine ⟨_, hset.trans (setInTable0_spec m s0 t0 "meta" (labelsVal ls) hs ht), ?_⟩
    rw [table_labels,
      getKey_map (lookupKey_mapSetKey_self m "sources" _)]
    show (match (Val.map (mapSetKey s0 "tables"
        (.seq [.map (mapSetKey t0 "meta" (labelsVal ls))]))).getKey "tables" with
      | .error e => Except.error e
      | .ok t => _) = _
    rw [getKey_map (lookupKey_mapSetKey_self s0 "tables" _)]
    show (Val.map (mapSetKey t0 "meta" (labelsVal ls))).getKey "meta" = _
    rw [getKey_map (lookupKey_mapSetKey_self t0 "meta" _)]

/-- C7 amended, witness: supplying the empty string stores the empty
string, clearing the prior description "old". -/
theorem setters_amended_witness :
    ∃ data2, table_description_set
        (.map [("sources", .seq [.map [("tables", .seq [.map [("description", .str "old")]])]])])
        (some "") = .ok data2 ∧
      table_description data2 = .ok (.str "") :=
  (setters_amended
    [("sources", .seq [.map [("tables", .seq [.map [("description", .str "old")]])]])]
    [("tables", .seq [.map [("description", .str "old")]])]
    [("description", .str "old")] rfl rfl).2.1 ""

end DbtSource
